import Mathlib

/-!
Verification development for the Smartlead Tag Mapper (`src/app.py`).

The relevant parts of the program are shallowly embedded here:
Python strings are lists of Unicode code points (`PyStr`), Python dicts
are functions into `Option`, pandas column operations become `List.map`
and `List.filter`, and the network call `apply_tags_batch` is abstracted
by an oracle giving the outcome of each successive HTTP call.
-/

/-- Python strings, modelled as lists of code points. -/
abbrev PyStr := List Nat

/-- The ASCII whitespace code points removed by Python `str.strip`. -/
def isPySpace (c : Nat) : Bool :=
  c == 32 || c == 9 || c == 10 || c == 13 || c == 11 || c == 12

/-- Drop trailing whitespace (the right half of Python `str.strip`). -/
def stripEnd (l : PyStr) : PyStr :=
  (l.reverse.dropWhile isPySpace).reverse

/-- Python `str.strip`: drop leading and trailing whitespace. -/
def pyStrip (s : PyStr) : PyStr :=
  stripEnd (s.dropWhile isPySpace)

/-- Python `str.lower` on a single code point (ASCII case mapping). -/
def pyLowerChar (c : Nat) : Nat :=
  if 65 ≤ c ∧ c ≤ 90 then c + 32 else c

/-- Python `str.lower`. -/
def pyLower (s : PyStr) : PyStr := s.map pyLowerChar

/-- `normalize_email` from app.py: `(s or "").strip().lower()`.  The argument is
`none` when the Python caller passes `None` (as the lookup-map builders may). -/
def normalize_email (s : Option PyStr) : PyStr := pyLower (pyStrip (s.getD []))

/-- `normalize_tag` from app.py; its body is identical to `normalize_email`. -/
def normalize_tag (s : Option PyStr) : PyStr := pyLower (pyStrip (s.getD []))

/-- One record of the accounts lookup response: `{"id": ..., "from_email": ...}`,
either field possibly `null`. -/
structure AccountRec where
  id : Option Int
  from_email : Option PyStr
  deriving DecidableEq

/-- One record of the tags lookup response: `{"id": ..., "name": ...}`. -/
structure TagRec where
  id : Option Int
  name : Option PyStr
  deriving DecidableEq

/-- One iteration of the `email_to_id` loop in app.py:
`em = normalize_email(a.get("from_email")); if em and a.get("id") is not None:
email_to_id[em] = a["id"]`. -/
def emailStep (m : PyStr → Option Int) (a : AccountRec) : PyStr → Option Int :=
  let em := normalize_email a.from_email
  match a.id with
  | none => m
  | some i => if em = [] then m else fun k => if k = em then some i else m k

/-- The `email_to_id` dict built from the accounts list. -/
def buildEmailToId (accounts : List AccountRec) : PyStr → Option Int :=
  accounts.foldl emailStep fun _ => none

/-- One iteration of the `tag_to_id` loop in app.py, updating the dict and the
`collisions` list:
`if not name or tid is None: continue;`
`if name in tag_to_id and tag_to_id[name] != tid: collisions.append(name);`
`tag_to_id[name] = tid`. -/
def tagStep (st : (PyStr → Option Int) × List PyStr) (t : TagRec) :
    (PyStr → Option Int) × List PyStr :=
  let name := normalize_tag t.name
  match t.id with
  | none => st
  | some tid =>
    if name = [] then st
    else
      let cols :=
        match st.1 name with
        | some old => if old ≠ tid then st.2 ++ [name] else st.2
        | none => st.2
      (fun k => if k = name then some tid else st.1 k, cols)

/-- The `tag_to_id` dict together with the `collisions` list. -/
def buildTagToId (tags : List TagRec) : (PyStr → Option Int) × List PyStr :=
  tags.foldl tagStep (fun _ => none, [])

/-- The last element of a list satisfying `p`, if any (used to state the
last-wins behaviour of repeated dict assignment). -/
def lastMatch (p : α → Bool) : List α → Option α
  | [] => none
  | x :: xs =>
    match lastMatch p xs with
    | some y => some y
    | none => if p x then some x else none

/-- An account record that stores an entry under key `k`: nonempty normalized
email equal to `k` and a non-null id. -/
def accMatches (k : PyStr) (a : AccountRec) : Bool :=
  decide (normalize_email a.from_email = k) && decide (k ≠ []) && a.id.isSome

/-- A tag record that stores an entry under key `k`. -/
def tagMatches (k : PyStr) (t : TagRec) : Bool :=
  decide (normalize_tag t.name = k) && decide (k ≠ []) && t.id.isSome

/-- An account record the loop discards: empty normalized email or null id. -/
def validAcc (a : AccountRec) : Bool :=
  decide (normalize_email a.from_email ≠ []) && a.id.isSome

/-- A tag record the loop keeps (not hit by the `continue`). -/
def validTag (t : TagRec) : Bool :=
  decide (normalize_tag t.name ≠ []) && t.id.isSome

/-- One uploaded CSV row after column selection: the raw email and tag text. -/
structure InputRow where
  email_raw : PyStr
  tag_raw : PyStr
  deriving DecidableEq

/-- One row of the mapped frame; `none` models the `"n/a"` written by
`fillna("n/a")`. -/
structure MappedRow where
  email : PyStr
  tag : PyStr
  email_account_id : Option Int
  tag_id : Option Int
  deriving DecidableEq

/-- Step 1 of app.py: the working frame with normalized `email` and `tag`
columns. -/
def buildFrame (rows : List InputRow) : List (PyStr × PyStr) :=
  rows.map fun r => (normalize_email (some r.email_raw), normalize_tag (some r.tag_raw))

/-- `df["email"].map(email_to_id).fillna("n/a")` and likewise for tags, on one
row. -/
def mapRow (e2i t2i : PyStr → Option Int) (r : PyStr × PyStr) : MappedRow :=
  ⟨r.1, r.2, e2i r.1, t2i r.2⟩

/-- The mapped frame stored in `st.session_state["mapped_df"]`. -/
def mapFrame (e2i t2i : PyStr → Option Int) (rows : List InputRow) : List MappedRow :=
  (buildFrame rows).map (mapRow e2i t2i)

/-- The `valid` sub-frame of `go_apply`: both ids resolved. -/
def validRows (rows : List MappedRow) : List MappedRow :=
  rows.filter fun r => r.email_account_id.isSome && r.tag_id.isSome

/-- The `invalid_rows` sub-frame: `email_account_id` or `tag_id` is `"n/a"`. -/
def invalidRows (rows : List MappedRow) : List MappedRow :=
  rows.filter fun r => r.email_account_id.isNone || r.tag_id.isNone

/-- `EMAIL_BATCH_LIMIT = 25` from app.py. -/
def EMAIL_BATCH_LIMIT : Nat := 25

/-- The status recorded in one `action_logs` entry: `"APPLIED"`,
`f"FAILED, {err}"`, or `"SKIPPED, dry run"`. -/
inductive Status where
  | applied
  | failedWith (err : String)
  | skippedDryRun
  deriving DecidableEq

/-- One `action_logs` entry: `{"tag_id": ..., "batch_count": ..., "status": ...}`. -/
structure LogEntry where
  tag_id : Int
  batch_count : Nat
  status : Status
  deriving DecidableEq

/-- The mutable state of the `go_apply` loop: `action_logs`, `total_ok`,
`total_fail`, plus a counter of HTTP calls issued to the tag-mapping endpoint. -/
structure RunState where
  logs : List LogEntry
  totalOk : Nat
  totalFail : Nat
  calls : Nat
  deriving DecidableEq

/-- Fuel-indexed chunking; the fuel only bounds recursion depth. -/
def chunksF (n : Nat) : Nat → List α → List (List α)
  | _, [] => []
  | 0, _ :: _ => []
  | f + 1, x :: xs => (x :: xs).take n :: chunksF n f ((x :: xs).drop n)

/-- `for i in range(0, len(ids), n): batch = ids[i:i+n]` — the list of
successive slices of size `n` (the last one possibly shorter). -/
def chunkList (n : Nat) (l : List α) : List (List α) := chunksF n l.length l

/-- The group key of a row of the `valid` sub-frame. -/
def tagOf (r : MappedRow) : Int := r.tag_id.getD 0

/-- The keys of `valid.groupby("tag_id")`: distinct tag ids in ascending order
(pandas sorts group keys). -/
def tagKeys (vr : List MappedRow) : List Int :=
  ((vr.map tagOf).dedup).insertionSort (· ≤ ·)

/-- The rows of one tag group, in frame order. -/
def groupFor (vr : List MappedRow) (t : Int) : List MappedRow :=
  vr.filter fun r => decide (r.tag_id = some t)

/-- `[int(x) for x in sub["email_account_id"].tolist()]`. -/
def idsOf (g : List MappedRow) : List Int :=
  g.map fun r => r.email_account_id.getD 0

/-- The body of the batching loop for one batch.  In live mode the oracle gives
the `(ok, err)` outcome of the next `apply_tags_batch` call; `st.calls` is the
index of that call. -/
def processChunk (dry : Bool) (oracle : Nat → Bool × String) (t : Int)
    (st : RunState) (batch : List Int) : RunState :=
  if dry then
    { st with logs := st.logs ++ [⟨t, batch.length, Status.skippedDryRun⟩] }
  else
    let r := oracle st.calls
    if r.1 then
      { logs := st.logs ++ [⟨t, batch.length, Status.applied⟩]
        totalOk := st.totalOk + batch.length
        totalFail := st.totalFail
        calls := st.calls + 1 }
    else
      { logs := st.logs ++ [⟨t, batch.length, Status.failedWith r.2⟩]
        totalOk := st.totalOk
        totalFail := st.totalFail + batch.length
        calls := st.calls + 1 }

/-- The inner batching loop of `go_apply` for one tag group. -/
def processGroup (dry : Bool) (oracle : Nat → Bool × String) (t : Int)
    (st : RunState) (ids : List Int) : RunState :=
  (chunkList EMAIL_BATCH_LIMIT ids).foldl (processChunk dry oracle t) st

/-- The whole `go_apply` loop over a mapped frame. -/
def runApply (dry : Bool) (oracle : Nat → Bool × String) (rows : List MappedRow) :
    RunState :=
  (tagKeys (validRows rows)).foldl
    (fun st t => processGroup dry oracle t st (idsOf (groupFor (validRows rows) t)))
    ⟨[], 0, 0, 0⟩

/-- Number of rows recorded in dry-run-skipped log entries. -/
def dryCount (logs : List LogEntry) : Nat :=
  ((logs.filter fun e => decide (e.status = Status.skippedDryRun)).map
    LogEntry.batch_count).sum

/-- Total number of batches the run iterates over. -/
def numChunks (rows : List MappedRow) : Nat :=
  ((tagKeys (validRows rows)).map fun t =>
    (chunkList EMAIL_BATCH_LIMIT (idsOf (groupFor (validRows rows) t))).length).sum

/-! ### Normalization lemmas -/

theorem dropWhile_self (p : α → Bool) (l : List α) :
    List.dropWhile p (List.dropWhile p l) = List.dropWhile p l := by
  induction l with
  | nil => rfl
  | cons x xs ih =>
    by_cases h : p x = true
    · simp [List.dropWhile_cons, h, ih]
    · simp [List.dropWhile_cons, h]

theorem dropWhile_head_false {p : α → Bool} {l : List α} {x : α}
    (h : (List.dropWhile p l).head? = some x) : p x = false := by
  induction l with
  | nil => simp at h
  | cons y ys ih =>
    by_cases hy : p y = true
    · exact ih (by simpa [List.dropWhile_cons, hy] using h)
    · rw [List.dropWhile_cons, if_neg (by simp [hy])] at h
      simp only [List.head?_cons, Option.some.injEq] at h
      subst h
      simpa using hy

theorem dropWhile_eq_self_of_head {p : α → Bool} {l : List α}
    (h : ∀ x, l.head? = some x → p x = false) : List.dropWhile p l = l := by
  cases l with
  | nil => rfl
  | cons y ys =>
    rw [List.dropWhile_cons]
    simp [h y rfl]

theorem stripEnd_head (l : PyStr) :
    stripEnd l = [] ∨ (stripEnd l).head? = l.head? := by
  cases l with
  | nil => left; rfl
  | cons x xs =>
    unfold stripEnd
    rw [List.reverse_cons, List.dropWhile_append]
    by_cases h : (List.dropWhile isPySpace xs.reverse).isEmpty = true
    · simp only [h, if_true]
      by_cases hx : isPySpace x = true
      · left; simp [List.dropWhile_cons, hx]
      · right; simp [List.dropWhile_cons, hx]
    · right
      simp only [h, if_false, List.reverse_append, List.reverse_cons]
      simp

theorem stripEnd_stripEnd (l : PyStr) : stripEnd (stripEnd l) = stripEnd l := by
  unfold stripEnd
  rw [List.reverse_reverse, dropWhile_self]

theorem dropWhile_stripEnd_dropWhile (s : PyStr) :
    List.dropWhile isPySpace (stripEnd (List.dropWhile isPySpace s)) =
      stripEnd (List.dropWhile isPySpace s) := by
  apply dropWhile_eq_self_of_head
  intro x hx
  rcases stripEnd_head (List.dropWhile isPySpace s) with h | h
  · rw [h] at hx; simp at hx
  · rw [h] at hx
    exact dropWhile_head_false hx

theorem pyStrip_pyStrip (s : PyStr) : pyStrip (pyStrip s) = pyStrip s := by
  show pyStrip (stripEnd (List.dropWhile isPySpace s)) = _
  unfold pyStrip
  rw [dropWhile_stripEnd_dropWhile, stripEnd_stripEnd]

theorem pyLowerChar_idem (c : Nat) : pyLowerChar (pyLowerChar c) = pyLowerChar c := by
  unfold pyLowerChar
  split <;> (try split) <;> omega

theorem pyLower_idem (s : PyStr) : pyLower (pyLower s) = pyLower s := by
  unfold pyLower
  rw [List.map_map]
  exact List.map_congr_left fun a _ => pyLowerChar_idem a

theorem isPySpace_lowerChar (c : Nat) : isPySpace (pyLowerChar c) = isPySpace c := by
  unfold pyLowerChar
  split
  · have h1 : isPySpace (c + 32) = false := by
      simp only [isPySpace, Bool.or_eq_false_iff, beq_eq_false_iff_ne, ne_eq]
      omega
    have h2 : isPySpace c = false := by
      simp only [isPySpace, Bool.or_eq_false_iff, beq_eq_false_iff_ne, ne_eq]
      omega
    rw [h1, h2]
  · rfl

theorem dropWhile_pyLower (l : PyStr) :
    List.dropWhile isPySpace (pyLower l) = pyLower (List.dropWhile isPySpace l) := by
  induction l with
  | nil => rfl
  | cons c cs ih =>
    show List.dropWhile isPySpace (pyLowerChar c :: pyLower cs) = _
    rw [List.dropWhile_cons, List.dropWhile_cons, isPySpace_lowerChar]
    by_cases h : isPySpace c = true
    · simp [h, ih]
    · simp only [h, if_false]
      rfl

theorem pyLower_reverse (l : PyStr) : pyLower l.reverse = (pyLower l).reverse :=
  List.map_reverse _ _

theorem stripEnd_pyLower (l : PyStr) : stripEnd (pyLower l) = pyLower (stripEnd l) := by
  unfold stripEnd
  rw [← pyLower_reverse, dropWhile_pyLower, pyLower_reverse]

theorem pyStrip_pyLower (s : PyStr) : pyStrip (pyLower s) = pyLower (pyStrip s) := by
  unfold pyStrip
  rw [dropWhile_pyLower, stripEnd_pyLower]

/-! ### Chunking lemmas -/

theorem chunksF_nil (n f : Nat) : chunksF n f ([] : List α) = [] := by
  cases f <;> rfl

theorem chunksF_succ (n f : Nat) (x : α) (xs : List α) :
    chunksF n (f + 1) (x :: xs) =
      (x :: xs).take n :: chunksF n f ((x :: xs).drop n) := rfl

theorem chunksF_fuel {n : Nat} (hn : 0 < n) :
    ∀ f (l : List α), l.length ≤ f → chunksF n f l = chunksF n l.length l := by
  intro f
  induction f using Nat.strong_induction_on with
  | _ f ih =>
    intro l hl
    cases l with
    | nil => rw [chunksF_nil, chunksF_nil]
    | cons x xs =>
      cases f with
      | zero => simp at hl
      | succ f =>
        simp only [List.length_cons] at hl
        rw [chunksF_succ, show (x :: xs).length = xs.length + 1 from rfl, chunksF_succ]
        congr 1
        have hdf : ((x :: xs).drop n).length ≤ f := by
          simp only [List.length_drop, List.length_cons]
          omega
        have hdx : ((x :: xs).drop n).length ≤ xs.length := by
          simp only [List.length_drop, List.length_cons]
          omega
        rw [ih f (Nat.lt_succ_self f) _ hdf, ih xs.length (by omega) _ hdx]

theorem chunkList_nil (n : Nat) : chunkList n ([] : List α) = [] := rfl

theorem chunkList_cons {n : Nat} (hn : 0 < n) (x : α) (xs : List α) :
    chunkList n (x :: xs) = (x :: xs).take n :: chunkList n ((x :: xs).drop n) := by
  unfold chunkList
  rw [show (x :: xs).length = xs.length + 1 from rfl, chunksF_succ]
  congr 1
  exact chunksF_fuel hn xs.length _ (by simp only [List.length_drop, List.length_cons]; omega)

theorem chunkList_flatten {n : Nat} (hn : 0 < n) (l : List α) :
    (chunkList n l).flatten = l := by
  generalize hk : l.length = k
  induction k using Nat.strong_induction_on generalizing l with
  | _ k ih =>
    cases l with
    | nil => rfl
    | cons x xs =>
      rw [chunkList_cons hn, List.flatten_cons,
        ih ((x :: xs).drop n).length ?_ _ rfl]
      · exact List.take_append_drop n (x :: xs)
      · subst hk
        simp only [List.length_drop, List.length_cons]
        omega

theorem chunkList_length_eq {n : Nat} (hn : 0 < n) (l : List α) :
    (chunkList n l).length = (l.length + n - 1) / n := by
  generalize hk : l.length = k
  induction k using Nat.strong_induction_on generalizing l with
  | _ k ih =>
    cases l with
    | nil =>
      subst hk
      simp only [chunkList_nil, List.length_nil, Nat.zero_add]
      rw [Nat.div_eq_of_lt (by omega)]
    | cons x xs =>
      subst hk
      rw [chunkList_cons hn, List.length_cons,
        ih ((x :: xs).drop n).length ?_ _ rfl]
      · simp only [List.length_drop, List.length_cons]
        by_cases hc : xs.length + 1 ≤ n
        · have e1 : xs.length + 1 - n = 0 := by omega
          have e2 : xs.length + 1 + n - 1 = xs.length + n := by omega
          rw [e1, e2, Nat.add_div_right _ hn, Nat.div_eq_of_lt (by omega),
            Nat.div_eq_of_lt (by omega)]
        · have e1 : xs.length + 1 - n + n - 1 = (xs.length - n) + n := by omega
          have e2 : xs.length + 1 + n - 1 = xs.length + n := by omega
          have e3 : xs.length / n = (xs.length - n) / n + 1 :=
            Nat.div_eq_sub_div hn (by omega)
          rw [e1, e2, Nat.add_div_right _ hn, Nat.add_div_right _ hn, e3]
      · simp only [List.length_drop, List.length_cons]
        omega

theorem chunkList_sizes {n : Nat} (hn : 0 < n) (l : List α) :
    ∀ c ∈ chunkList n l, 1 ≤ c.length ∧ c.length ≤ n := by
  generalize hk : l.length = k
  induction k using Nat.strong_induction_on generalizing l with
  | _ k ih =>
    cases l with
    | nil => intro c hc; simp [chunkList_nil] at hc
    | cons x xs =>
      rw [chunkList_cons hn]
      intro c hc
      rcases List.mem_cons.mp hc with h | h
      · subst h
        simp only [List.length_take, List.length_cons]
        omega
      · refine ih ((x :: xs).drop n).length ?_ _ rfl c h
        subst hk
        simp only [List.length_drop, List.length_cons]
        omega

/-! ### Generic fold helpers -/

theorem foldl_additive {β γ : Type} [AddCommMonoid γ] (f : RunState → β → RunState)
    (g : RunState → γ) (w : β → γ) (h : ∀ st b, g (f st b) = g st + w b) :
    ∀ (l : List β) (st : RunState), g (l.foldl f st) = g st + (l.map w).sum := by
  intro l
  induction l with
  | nil => intro st; simp
  | cons b bs ih =>
    intro st
    simp only [List.foldl_cons, List.map_cons, List.sum_cons]
    rw [ih, h]
    rw [add_assoc]

theorem foldl_preserve {β γ : Type} (f : RunState → β → RunState)
    (g : RunState → γ) (h : ∀ st b, g (f st b) = g st) :
    ∀ (l : List β) (st : RunState), g (l.foldl f st) = g st := by
  intro l
  induction l with
  | nil => intro st; rfl
  | cons b bs ih =>
    intro st
    simp only [List.foldl_cons]
    rw [ih, h]

theorem foldl_pred {β : Type} (f : RunState → β → RunState)
    (P : RunState → Prop) (h : ∀ st b, P st → P (f st b)) :
    ∀ (l : List β) (st : RunState), P st → P (l.foldl f st) := by
  intro l
  induction l with
  | nil => intro st hst; exact hst
  | cons b bs ih =>
    intro st hst
    simp only [List.foldl_cons]
    exact ih _ (h st b hst)

/-! ### Accounting lemmas for the apply loop -/

/-- Rows counted as applied, failed, or dry-run-skipped. -/
def okFailDry (st : RunState) : Nat := st.totalOk + st.totalFail + dryCount st.logs

theorem emailBatchLimit_pos : 0 < EMAIL_BATCH_LIMIT := by decide

theorem dryCount_append (l1 l2 : List LogEntry) :
    dryCount (l1 ++ l2) = dryCount l1 + dryCount l2 := by
  unfold dryCount
  rw [List.filter_append, List.map_append, List.sum_append]

theorem dryCount_single (e : LogEntry) :
    dryCount [e] = if e.status = Status.skippedDryRun then e.batch_count else 0 := by
  unfold dryCount
  by_cases h : e.status = Status.skippedDryRun
  · simp [List.filter_cons, h]
  · simp [List.filter_cons, h]

theorem processChunk_dry (oracle : Nat → Bool × String) (t : Int) (st : RunState)
    (batch : List Int) :
    processChunk true oracle t st batch =
      { st with logs := st.logs ++ [⟨t, batch.length, Status.skippedDryRun⟩] } := rfl

theorem processChunk_live (oracle : Nat → Bool × String) (t : Int) (st : RunState)
    (batch : List Int) :
    processChunk false oracle t st batch =
      if (oracle st.calls).1 then
        ⟨st.logs ++ [⟨t, batch.length, Status.applied⟩],
          st.totalOk + batch.length, st.totalFail, st.calls + 1⟩
      else
        ⟨st.logs ++ [⟨t, batch.length, Status.failedWith (oracle st.calls).2⟩],
          st.totalOk, st.totalFail + batch.length, st.calls + 1⟩ := rfl

theorem processChunk_measure (dry : Bool) (oracle : Nat → Bool × String) (t : Int)
    (st : RunState) (batch : List Int) :
    okFailDry (processChunk dry oracle t st batch) = okFailDry st + batch.length := by
  cases dry with
  | true =>
    rw [processChunk_dry]
    unfold okFailDry
    simp only [dryCount_append, dryCount_single]
    simp
    omega
  | false =>
    rw [processChunk_live]
    by_cases h : (oracle st.calls).1 = true
    · rw [if_pos h]
      unfold okFailDry
      simp only [dryCount_append, dryCount_single]
      simp
      omega
    · rw [if_neg h]
      unfold okFailDry
      simp only [dryCount_append, dryCount_single]
      simp
      omega

theorem processGroup_measure (dry : Bool) (oracle : Nat → Bool × String) (t : Int)
    (st : RunState) (ids : List Int) :
    okFailDry (processGroup dry oracle t st ids) = okFailDry st + ids.length := by
  unfold processGroup
  rw [foldl_additive (processChunk dry oracle t) okFailDry List.length
    (processChunk_measure dry oracle t)]
  congr 1
  rw [← List.length_flatten, chunkList_flatten emailBatchLimit_pos]

/-! ### Partition of the valid rows into tag groups -/

theorem sum_filter_lengths :
    ∀ (keys : List Int), keys.Nodup → ∀ (ts : List Int), (∀ x ∈ ts, x ∈ keys) →
      ((keys.map fun k => (ts.filter fun x => decide (x = k)).length).sum = ts.length) := by
  intro keys
  induction keys with
  | nil =>
    intro _ ts hts
    cases ts with
    | nil => rfl
    | cons y ys => exact absurd (hts y (List.mem_cons_self y ys)) (List.not_mem_nil y)
  | cons k ks ih =>
    intro hnd ts hts
    have hnd' : ks.Nodup := (List.nodup_cons.mp hnd).2
    have hk : k ∉ ks := (List.nodup_cons.mp hnd).1
    simp only [List.map_cons, List.sum_cons]
    have hcong : ∀ t ∈ ks,
        (ts.filter fun x => decide (x = t)).length =
          (((ts.filter fun x => !(decide (x = k))).filter fun x => decide (x = t)).length) := by
      intro t ht
      rw [List.filter_filter]
      congr 1
      apply List.filter_congr
      intro x _
      by_cases hx : x = t
      · have htk : ¬t = k := fun h => hk (h ▸ ht)
        simp [hx, htk]
      · simp [hx]
    rw [List.map_congr_left hcong, ih hnd' _ ?_]
    · exact (List.length_eq_length_filter_add fun x => decide (x = k)).symm
    · intro x hx
      rw [List.mem_filter] at hx
      have hxk : ¬x = k := by simpa using hx.2
      rcases List.mem_cons.mp (hts x hx.1) with h | h
      · exact absurd h hxk
      · exact h

theorem groupFor_eq_filter_tagOf (vr : List MappedRow)
    (hv : ∀ r ∈ vr, r.tag_id.isSome = true) (t : Int) :
    groupFor vr t = vr.filter fun r => decide (tagOf r = t) := by
  unfold groupFor
  apply List.filter_congr
  intro r hr
  rcases Option.isSome_iff_exists.mp (hv r hr) with ⟨v, hvv⟩
  simp [tagOf, hvv]

theorem sum_groups_length (vr : List MappedRow)
    (hv : ∀ r ∈ vr, r.tag_id.isSome = true) :
    (((tagKeys vr).map fun t => (groupFor vr t).length).sum = vr.length) := by
  have hlen : ∀ t, (groupFor vr t).length =
      ((vr.map tagOf).filter fun x => decide (x = t)).length := by
    intro t
    rw [groupFor_eq_filter_tagOf vr hv t, List.filter_map, List.length_map]
    rfl
  have hperm : ((tagKeys vr).map fun t =>
        ((vr.map tagOf).filter fun x => decide (x = t)).length).Perm
      (((vr.map tagOf).dedup).map fun t =>
        ((vr.map tagOf).filter fun x => decide (x = t)).length) :=
    (List.perm_insertionSort _ _).map _
  rw [List.map_congr_left fun t _ => hlen t, hperm.sum_eq,
    sum_filter_lengths _ (List.nodup_dedup _) _ fun x hx => List.mem_dedup.mpr hx,
    List.length_map]

theorem valid_invalid_split (rows : List MappedRow) :
    (validRows rows).length + (invalidRows rows).length = rows.length := by
  have h1 : invalidRows rows =
      rows.filter fun r => !(r.email_account_id.isSome && r.tag_id.isSome) := by
    unfold invalidRows
    apply List.filter_congr
    intro r _
    cases r.email_account_id <;> cases r.tag_id <;> rfl
  rw [h1]
  unfold validRows
  exact (List.length_eq_length_filter_add _).symm

theorem validRows_tagSome (rows : List MappedRow) :
    ∀ r ∈ validRows rows, r.tag_id.isSome = true := by
  intro r hr
  unfold validRows at hr
  rw [List.mem_filter] at hr
  exact (Bool.and_elim_right hr.2)

theorem runApply_measure (dry : Bool) (oracle : Nat → Bool × String)
    (rows : List MappedRow) :
    okFailDry (runApply dry oracle rows) = (validRows rows).length := by
  unfold runApply
  rw [foldl_additive
    (fun st t => processGroup dry oracle t st (idsOf (groupFor (validRows rows) t)))
    okFailDry (fun t => (idsOf (groupFor (validRows rows) t)).length)
    (fun st t => processGroup_measure dry oracle t st _)]
  have h0 : okFailDry ⟨[], 0, 0, 0⟩ = 0 := rfl
  rw [h0, Nat.zero_add]
  have hlen : ∀ t, (idsOf (groupFor (validRows rows) t)).length =
      (groupFor (validRows rows) t).length := by
    intro t
    unfold idsOf
    rw [List.length_map]
  rw [List.map_congr_left fun t _ => hlen t,
    sum_groups_length _ (validRows_tagSome rows)]


/-! ### Mode-specific characterizations of the apply loop -/

theorem sum_map_one {β : Type} (l : List β) : (l.map fun _ => (1 : Nat)).sum = l.length := by
  induction l with
  | nil => rfl
  | cons x xs ih => simp [ih, Nat.add_comm]

theorem processChunk_logs_length (dry : Bool) (oracle : Nat → Bool × String) (t : Int)
    (st : RunState) (batch : List Int) :
    (processChunk dry oracle t st batch).logs.length = st.logs.length + 1 := by
  cases dry with
  | true => rw [processChunk_dry]; simp
  | false =>
    rw [processChunk_live]
    by_cases h : (oracle st.calls).1 = true
    · rw [if_pos h]; simp
    · rw [if_neg h]; simp

theorem processGroup_logs_length (dry : Bool) (oracle : Nat → Bool × String) (t : Int)
    (st : RunState) (ids : List Int) :
    (processGroup dry oracle t st ids).logs.length =
      st.logs.length + (chunkList EMAIL_BATCH_LIMIT ids).length := by
  unfold processGroup
  rw [foldl_additive (processChunk dry oracle t) (fun st => st.logs.length) (fun _ => 1)
    (fun st b => processChunk_logs_length dry oracle t st b), sum_map_one]

theorem runApply_logs_length (dry : Bool) (oracle : Nat → Bool × String)
    (rows : List MappedRow) :
    (runApply dry oracle rows).logs.length = numChunks rows := by
  unfold runApply numChunks
  rw [foldl_additive
    (fun st t => processGroup dry oracle t st (idsOf (groupFor (validRows rows) t)))
    (fun st => st.logs.length)
    (fun t => (chunkList EMAIL_BATCH_LIMIT (idsOf (groupFor (validRows rows) t))).length)
    (fun st t => processGroup_logs_length dry oracle t st _)]
  simp

theorem processChunk_live_calls (oracle : Nat → Bool × String) (t : Int)
    (st : RunState) (batch : List Int) :
    (processChunk false oracle t st batch).calls = st.calls + 1 := by
  rw [processChunk_live]
  by_cases h : (oracle st.calls).1 = true
  · rw [if_pos h]
  · rw [if_neg h]

theorem processGroup_live_calls (oracle : Nat → Bool × String) (t : Int)
    (st : RunState) (ids : List Int) :
    (processGroup false oracle t st ids).calls =
      st.calls + (chunkList EMAIL_BATCH_LIMIT ids).length := by
  unfold processGroup
  rw [foldl_additive (processChunk false oracle t) (fun st => st.calls) (fun _ => 1)
    (fun st b => processChunk_live_calls oracle t st b), sum_map_one]

theorem runApply_live_calls (oracle : Nat → Bool × String) (rows : List MappedRow) :
    (runApply false oracle rows).calls = numChunks rows := by
  unfold runApply numChunks
  rw [foldl_additive
    (fun st t => processGroup false oracle t st (idsOf (groupFor (validRows rows) t)))
    (fun st => st.calls)
    (fun t => (chunkList EMAIL_BATCH_LIMIT (idsOf (groupFor (validRows rows) t))).length)
    (fun st t => processGroup_live_calls oracle t st _)]
  simp

theorem processGroup_dry_calls (oracle : Nat → Bool × String) (t : Int)
    (st : RunState) (ids : List Int) :
    (processGroup true oracle t st ids).calls = st.calls := by
  unfold processGroup
  exact foldl_preserve (processChunk true oracle t) (fun st => st.calls)
    (fun st b => by rw [processChunk_dry]) _ _

theorem runApply_dry_calls (oracle : Nat → Bool × String) (rows : List MappedRow) :
    (runApply true oracle rows).calls = 0 := by
  unfold runApply
  exact foldl_preserve
    (fun st t => processGroup true oracle t st (idsOf (groupFor (validRows rows) t)))
    (fun st => st.calls)
    (fun st t => processGroup_dry_calls oracle t st _) _ _

theorem processGroup_dry_totalOk (oracle : Nat → Bool × String) (t : Int)
    (st : RunState) (ids : List Int) :
    (processGroup true oracle t st ids).totalOk = st.totalOk := by
  unfold processGroup
  exact foldl_preserve (processChunk true oracle t) (fun st => st.totalOk)
    (fun st b => by rw [processChunk_dry]) _ _

theorem runApply_dry_totalOk (oracle : Nat → Bool × String) (rows : List MappedRow) :
    (runApply true oracle rows).totalOk = 0 := by
  unfold runApply
  exact foldl_preserve
    (fun st t => processGroup true oracle t st (idsOf (groupFor (validRows rows) t)))
    (fun st => st.totalOk)
    (fun st t => processGroup_dry_totalOk oracle t st _) _ _

theorem processGroup_dry_totalFail (oracle : Nat → Bool × String) (t : Int)
    (st : RunState) (ids : List Int) :
    (processGroup true oracle t st ids).totalFail = st.totalFail := by
  unfold processGroup
  exact foldl_preserve (processChunk true oracle t) (fun st => st.totalFail)
    (fun st b => by rw [processChunk_dry]) _ _

theorem runApply_dry_totalFail (oracle : Nat → Bool × String) (rows : List MappedRow) :
    (runApply true oracle rows).totalFail = 0 := by
  unfold runApply
  exact foldl_preserve
    (fun st t => processGroup true oracle t st (idsOf (groupFor (validRows rows) t)))
    (fun st => st.totalFail)
    (fun st t => processGroup_dry_totalFail oracle t st _) _ _

theorem processChunk_live_dryCount (oracle : Nat → Bool × String) (t : Int)
    (st : RunState) (batch : List Int) :
    dryCount (processChunk false oracle t st batch).logs = dryCount st.logs := by
  rw [processChunk_live]
  by_cases h : (oracle st.calls).1 = true
  · rw [if_pos h]
    simp [dryCount_append, dryCount_single]
  · rw [if_neg h]
    simp [dryCount_append, dryCount_single]

theorem processGroup_live_dryCount (oracle : Nat → Bool × String) (t : Int)
    (st : RunState) (ids : List Int) :
    dryCount (processGroup false oracle t st ids).logs = dryCount st.logs := by
  unfold processGroup
  exact foldl_preserve (processChunk false oracle t) (fun st => dryCount st.logs)
    (fun st b => processChunk_live_dryCount oracle t st b) _ _

theorem runApply_live_dryCount (oracle : Nat → Bool × String) (rows : List MappedRow) :
    dryCount (runApply false oracle rows).logs = 0 := by
  unfold runApply
  exact foldl_preserve
    (fun st t => processGroup false oracle t st (idsOf (groupFor (validRows rows) t)))
    (fun st => dryCount st.logs)
    (fun st t => processGroup_live_dryCount oracle t st _) _ _

theorem processGroup_dry_statuses (oracle : Nat → Bool × String) (t : Int)
    (st : RunState) (ids : List Int)
    (hst : ∀ e ∈ st.logs, e.status = Status.skippedDryRun) :
    ∀ e ∈ (processGroup true oracle t st ids).logs, e.status = Status.skippedDryRun := by
  unfold processGroup
  refine foldl_pred (processChunk true oracle t)
    (fun st => ∀ e ∈ st.logs, e.status = Status.skippedDryRun)
    (fun st b hst => ?_) _ _ hst
  rw [processChunk_dry]
  intro e he
  simp only [List.mem_append, List.mem_singleton] at he
  rcases he with h | h
  · exact hst e h
  · rw [h]

theorem runApply_dry_statuses (oracle : Nat → Bool × String) (rows : List MappedRow) :
    ∀ e ∈ (runApply true oracle rows).logs, e.status = Status.skippedDryRun := by
  unfold runApply
  exact foldl_pred
    (fun st t => processGroup true oracle t st (idsOf (groupFor (validRows rows) t)))
    (fun st => ∀ e ∈ st.logs, e.status = Status.skippedDryRun)
    (fun st t hst => processGroup_dry_statuses oracle t st _ hst) _ _
    (by intro e he; simp at he)

/-! ### The email lookup map -/

theorem emailStep_lookup (m : PyStr → Option Int) (a : AccountRec) (k : PyStr) :
    emailStep m a k = if accMatches k a then a.id else m k := by
  unfold emailStep accMatches
  cases hid : a.id with
  | none => simp
  | some i =>
    simp only [Option.isSome_some, Bool.and_true]
    by_cases hem : normalize_email a.from_email = []
    · rw [if_pos hem]
      have hc : (decide (normalize_email a.from_email = k) && decide (k ≠ [])) = false := by
        by_cases hk : normalize_email a.from_email = k
        · subst hk
          simp [hem]
        · simp [hk]
      rw [hc]
      rfl
    · rw [if_neg hem]
      by_cases hk : k = normalize_email a.from_email
      · subst hk
        simp [hem]
      · rw [if_neg hk]
        have hd : decide (normalize_email a.from_email = k) = false := by
          simp only [decide_eq_false_iff_not]
          exact fun h => hk h.symm
        rw [hd, Bool.false_and]
        simp

theorem foldl_emailStep_lastMatch (l : List AccountRec) :
    ∀ (m : PyStr → Option Int) (k : PyStr),
      l.foldl emailStep m k =
        match lastMatch (accMatches k) l with
        | some a => a.id
        | none => m k := by
  induction l with
  | nil => intro m k; rfl
  | cons a l ih =>
    intro m k
    simp only [List.foldl_cons, lastMatch]
    rw [ih]
    cases hlm : lastMatch (accMatches k) l with
    | some b => rfl
    | none =>
      rw [emailStep_lookup]
      by_cases h : accMatches k a = true <;> simp [h]

theorem buildEmailToId_lastMatch (accounts : List AccountRec) (k : PyStr) :
    buildEmailToId accounts k = (lastMatch (accMatches k) accounts).bind AccountRec.id := by
  unfold buildEmailToId
  rw [foldl_emailStep_lastMatch]
  cases lastMatch (accMatches k) accounts <;> rfl

theorem emailStep_invalid (m : PyStr → Option Int) (a : AccountRec)
    (h : validAcc a = false) : emailStep m a = m := by
  unfold emailStep
  unfold validAcc at h
  cases hid : a.id with
  | none => rfl
  | some i =>
    rw [hid] at h
    simp only [Option.isSome_some, Bool.and_true, decide_eq_false_iff_not, ne_eq,
      not_not] at h
    show (if normalize_email a.from_email = [] then m
      else fun k => if k = normalize_email a.from_email then some i else m k) = m
    rw [if_pos h]

theorem buildEmailToId_skip (l1 l2 : List AccountRec) (a : AccountRec)
    (h : validAcc a = false) :
    buildEmailToId (l1 ++ a :: l2) = buildEmailToId (l1 ++ l2) := by
  unfold buildEmailToId
  rw [List.foldl_append, List.foldl_append, List.foldl_cons, emailStep_invalid _ a h]

theorem buildEmailToId_append_valid (l : List AccountRec) (a : AccountRec)
    (h : validAcc a = true) :
    buildEmailToId (l ++ [a]) (normalize_email a.from_email) = a.id := by
  unfold buildEmailToId
  rw [List.foldl_append, List.foldl_cons]
  show emailStep _ a (normalize_email a.from_email) = a.id
  rw [emailStep_lookup, if_pos ?_]
  unfold accMatches
  unfold validAcc at h
  rw [Bool.and_eq_true] at h
  rcases h with ⟨h1, h2⟩
  rw [decide_eq_true_eq] at h1
  simp [h1, h2]

/-! ### The tag lookup map and its collision list -/

theorem tagStep_fst (st : (PyStr → Option Int) × List PyStr) (t : TagRec) (k : PyStr) :
    (tagStep st t).1 k = if tagMatches k t then t.id else st.1 k := by
  cases hid : t.id with
  | none => simp [tagStep, tagMatches, hid]
  | some tid =>
    by_cases hname : normalize_tag t.name = []
    · have hc : tagMatches k t = false := by
        unfold tagMatches
        rw [hid]
        by_cases hk : normalize_tag t.name = k
        · rw [← hk]
          simp [hname]
        · simp [hk]
      simp [tagStep, hid, hname, hc]
    · have hL : (tagStep st t).1 k =
          if k = normalize_tag t.name then some tid else st.1 k := by
        simp [tagStep, hid, hname]
      rw [hL]
      unfold tagMatches
      rw [hid]
      simp only [Option.isSome_some, Bool.and_true]
      by_cases hk : k = normalize_tag t.name
      · subst hk
        simp [hname]
      · rw [if_neg hk]
        have hd : decide (normalize_tag t.name = k) = false := by
          simp only [decide_eq_false_iff_not]
          exact fun h => hk h.symm
        rw [hd, Bool.false_and]
        simp

theorem foldl_tagStep_lastMatch (l : List TagRec) :
    ∀ (st : (PyStr → Option Int) × List PyStr) (k : PyStr),
      (l.foldl tagStep st).1 k =
        match lastMatch (tagMatches k) l with
        | some t => t.id
        | none => st.1 k := by
  induction l with
  | nil => intro st k; rfl
  | cons t l ih =>
    intro st k
    simp only [List.foldl_cons, lastMatch]
    rw [ih]
    cases hlm : lastMatch (tagMatches k) l with
    | some b => rfl
    | none =>
      rw [tagStep_fst]
      by_cases h : tagMatches k t = true <;> simp [h]

theorem buildTagToId_lastMatch (tags : List TagRec) (k : PyStr) :
    (buildTagToId tags).1 k = (lastMatch (tagMatches k) tags).bind TagRec.id := by
  unfold buildTagToId
  rw [foldl_tagStep_lastMatch]
  cases lastMatch (tagMatches k) tags <;> rfl

theorem tagStep_invalid (st : (PyStr → Option Int) × List PyStr) (t : TagRec)
    (h : validTag t = false) : tagStep st t = st := by
  unfold validTag at h
  cases hid : t.id with
  | none => simp [tagStep, hid]
  | some tid =>
    rw [hid] at h
    simp only [Option.isSome_some, Bool.and_true, decide_eq_false_iff_not, ne_eq,
      not_not] at h
    simp [tagStep, hid, h]

theorem buildTagToId_skip (l1 l2 : List TagRec) (t : TagRec)
    (h : validTag t = false) :
    buildTagToId (l1 ++ t :: l2) = buildTagToId (l1 ++ l2) := by
  unfold buildTagToId
  rw [List.foldl_append, List.foldl_append, List.foldl_cons, tagStep_invalid _ t h]

theorem buildTagToId_append_valid (l : List TagRec) (t : TagRec)
    (h : validTag t = true) :
    (buildTagToId (l ++ [t])).1 (normalize_tag t.name) = t.id := by
  unfold buildTagToId
  rw [List.foldl_append, List.foldl_cons, List.foldl_nil, tagStep_fst, if_pos ?_]
  unfold tagMatches
  unfold validTag at h
  rw [Bool.and_eq_true] at h
  rcases h with ⟨h1, h2⟩
  rw [decide_eq_true_eq] at h1
  simp [h1, h2]

/-- Consistency of a tag record with the ids already stored: processing the
list from this dict state appends nothing to `collisions`. -/
def NoClash (m : PyStr → Option Int) : List TagRec → Prop
  | [] => True
  | t :: ts =>
    match t.id with
    | none => NoClash m ts
    | some tid =>
      if normalize_tag t.name = [] then NoClash m ts
      else
        (∀ old, m (normalize_tag t.name) = some old → old = tid) ∧
          NoClash (fun k => if k = normalize_tag t.name then some tid else m k) ts

/-- Two tag records that both enter the map and share a normalized name carry
the same id. -/
def tagRel (t1 t2 : TagRec) : Prop :=
  validTag t1 = true → validTag t2 = true →
    normalize_tag t1.name = normalize_tag t2.name → t1.id = t2.id

theorem tagFold_cols (tags : List TagRec) :
    ∀ st : (PyStr → Option Int) × List PyStr,
      ((tags.foldl tagStep st).2 = [] ↔ st.2 = [] ∧ NoClash st.1 tags) := by
  induction tags with
  | nil => intro st; simp [NoClash]
  | cons t ts ih =>
    intro st
    simp only [List.foldl_cons]
    rw [ih]
    cases hid : t.id with
    | none =>
      have hstep : tagStep st t = st := by simp [tagStep, hid]
      have hnc : NoClash st.1 (t :: ts) = NoClash st.1 ts := by simp [NoClash, hid]
      rw [hstep, hnc]
    | some tid =>
      by_cases hname : normalize_tag t.name = []
      · have hstep : tagStep st t = st := by simp [tagStep, hid, hname]
        have hnc : NoClash st.1 (t :: ts) = NoClash st.1 ts := by
          simp [NoClash, hid, hname]
        rw [hstep, hnc]
      · have hnc : NoClash st.1 (t :: ts) =
            ((∀ old, st.1 (normalize_tag t.name) = some old → old = tid) ∧
              NoClash (fun k => if k = normalize_tag t.name then some tid else st.1 k)
                ts) := by
          simp [NoClash, hid, hname]
        have hfst : (tagStep st t).1 =
            fun k => if k = normalize_tag t.name then some tid else st.1 k := by
          simp [tagStep, hid, hname]
        have hsnd : (tagStep st t).2 =
            match st.1 (normalize_tag t.name) with
            | some old => if old ≠ tid then st.2 ++ [normalize_tag t.name] else st.2
            | none => st.2 := by
          simp [tagStep, hid, hname]
        cases hm : st.1 (normalize_tag t.name) with
        | none =>
          have hsnd2 : (tagStep st t).2 = st.2 := by
            simp [tagStep, hid, hname, hm]
          rw [hnc, hfst, hsnd2, hm]
          constructor
          · rintro ⟨h1, h2⟩
            refine ⟨h1, ?_, h2⟩
            intro old h
            exact nomatch h
          · rintro ⟨h1, _, h2⟩
            exact ⟨h1, h2⟩
        | some old =>
          by_cases hot : old = tid
          · have hsnd2 : (tagStep st t).2 = st.2 := by
              simp [tagStep, hid, hname, hm, hot]
            rw [hnc, hfst, hsnd2, hm]
            constructor
            · rintro ⟨h1, h2⟩
              refine ⟨h1, fun o ho => ?_, h2⟩
              cases ho
              exact hot
            · rintro ⟨h1, _, h2⟩
              exact ⟨h1, h2⟩
          · have hsnd2 : (tagStep st t).2 = st.2 ++ [normalize_tag t.name] := by
              simp [tagStep, hid, hname, hm, hot]
            rw [hnc, hfst, hsnd2, hm]
            constructor
            · rintro ⟨h1, _⟩
              exact absurd h1 (by simp)
            · rintro ⟨_, h1, _⟩
              exact absurd (h1 old rfl) hot

theorem pairwise_cons_invalid (t : TagRec) (ts : List TagRec) (hv : validTag t = false) :
    List.Pairwise tagRel (t :: ts) ↔ List.Pairwise tagRel ts := by
  rw [List.pairwise_cons]
  constructor
  · exact fun h => h.2
  · intro h
    refine ⟨?_, h⟩
    intro t' _ hval
    rw [hv] at hval
    exact nomatch hval

theorem consCond_invalid (m : PyStr → Option Int) (t : TagRec) (ts : List TagRec)
    (hv : validTag t = false) :
    ((∀ t' ∈ t :: ts, validTag t' = true →
        ∀ old, m (normalize_tag t'.name) = some old → t'.id = some old) ↔
      (∀ t' ∈ ts, validTag t' = true →
        ∀ old, m (normalize_tag t'.name) = some old → t'.id = some old)) := by
  constructor
  · intro h t' ht'
    exact h t' (List.mem_cons_of_mem _ ht')
  · intro h t' ht'
    rcases List.mem_cons.mp ht' with rfl | ht'
    · intro hval
      rw [hv] at hval
      exact nomatch hval
    · exact h t' ht'

theorem noClash_iff (ts : List TagRec) :
    ∀ m : PyStr → Option Int,
      (NoClash m ts ↔
        ((∀ t' ∈ ts, validTag t' = true →
            ∀ old, m (normalize_tag t'.name) = some old → t'.id = some old) ∧
          List.Pairwise tagRel ts)) := by
  induction ts with
  | nil => intro m; simp [NoClash]
  | cons t ts ih =>
    intro m
    cases hid : t.id with
    | none =>
      have hv : validTag t = false := by
        unfold validTag
        rw [hid]
        simp
      have hred : NoClash m (t :: ts) = NoClash m ts := by simp [NoClash, hid]
      rw [hred, ih m, consCond_invalid m t ts hv, pairwise_cons_invalid t ts hv]
    | some tid =>
      by_cases hname : normalize_tag t.name = []
      · have hv : validTag t = false := by
          unfold validTag
          simp [hname]
        have hred : NoClash m (t :: ts) = NoClash m ts := by
          simp [NoClash, hid, hname]
        rw [hred, ih m, consCond_invalid m t ts hv, pairwise_cons_invalid t ts hv]
      · have hv : validTag t = true := by
          unfold validTag
          simp [hname, hid]
        have hred : NoClash m (t :: ts) =
            ((∀ old, m (normalize_tag t.name) = some old → old = tid) ∧
              NoClash (fun k => if k = normalize_tag t.name then some tid else m k)
                ts) := by
          simp [NoClash, hid, hname]
        rw [hred, ih (fun k => if k = normalize_tag t.name then some tid else m k),
          List.pairwise_cons]
        constructor
        · rintro ⟨c0, hrest, pw⟩
          refine ⟨?_, ?_, pw⟩
          · intro t' ht'
            rcases List.mem_cons.mp ht' with rfl | ht'
            · intro _ old hmo
              rw [hid]
              exact congrArg some (c0 old hmo).symm
            · intro hval' old hmo
              by_cases hk : normalize_tag t'.name = normalize_tag t.name
              · have h1 : (fun k => if k = normalize_tag t.name then some tid else m k)
                    (normalize_tag t'.name) = some tid := by
                  simp [hk]
                have h2 := hrest t' ht' hval' tid h1
                have h3 : old = tid := c0 old (by rw [← hk]; exact hmo)
                rw [h2, h3]
              · have h1 : (fun k => if k = normalize_tag t.name then some tid else m k)
                    (normalize_tag t'.name) = some old := by
                  show (if normalize_tag t'.name = normalize_tag t.name then some tid
                    else m (normalize_tag t'.name)) = some old
                  rw [if_neg hk]
                  exact hmo
                exact hrest t' ht' hval' old h1
          · intro a ha hvt hva hnm
            have h1 : (fun k => if k = normalize_tag t.name then some tid else m k)
                (normalize_tag a.name) = some tid := by
              simp [← hnm]
            have h2 := hrest a ha hva tid h1
            rw [hid, h2]
        · rintro ⟨hcons, hrel, pw⟩
          refine ⟨?_, ?_, pw⟩
          · intro old hmo
            have h1 := hcons t (List.mem_cons_self t ts) hv old hmo
            rw [hid] at h1
            exact (Option.some.inj h1).symm
          · intro t' ht' hval' old hmo
            by_cases hk : normalize_tag t'.name = normalize_tag t.name
            · have h2 : some tid = some old := by
                rw [← hmo]
                simp [hk]
              have h3 : t.id = t'.id := hrel t' ht' hv hval' hk.symm
              rw [← h3, hid, h2]
            · have h2 : m (normalize_tag t'.name) = some old := by
                rw [← hmo]
                show m (normalize_tag t'.name) =
                  (if normalize_tag t'.name = normalize_tag t.name then some tid
                    else m (normalize_tag t'.name))
                rw [if_neg hk]
              exact hcons t' (List.mem_cons_of_mem _ ht') hval' old h2

theorem buildTagToId_cols_iff (tags : List TagRec) :
    ((buildTagToId tags).2 = [] ↔ List.Pairwise tagRel tags) := by
  unfold buildTagToId
  rw [tagFold_cols]
  constructor
  · rintro ⟨_, hnc⟩
    exact ((noClash_iff tags _).mp hnc).2
  · intro hp
    refine ⟨rfl, (noClash_iff tags _).mpr ⟨?_, hp⟩⟩
    intro t' _ _ old h
    exact nomatch h

/-! ### Concrete data for witnesses and counterexamples -/

/-- An oracle under which every `apply_tags_batch` call succeeds. -/
def oracleOk : Nat → Bool × String := fun _ => (true, "")

/-- An oracle whose first call fails with error text `boom`. -/
def oracleFailFirst : Nat → Bool × String :=
  fun i => if i = 0 then (false, "boom") else (true, "")

/-- One resolved row (account 3, tag 7). -/
def exRowsC1 : List MappedRow := [⟨[], [], some 3, some 7⟩]

/-- One resolved row and one row with a missing account id, both under tag 8. -/
def exRowsC1w : List MappedRow := [⟨[], [], some 4, some 8⟩, ⟨[], [], none, some 8⟩]

/-- Thirty account ids. -/
def exIdsC2 : List Int := (List.range 30).map Int.ofNat

/-- One resolved row (account 1, tag 9). -/
def exRowsC3 : List MappedRow := [⟨[], [], some 1, some 9⟩]

/-- One resolved row (account 2, tag 5). -/
def exRowsC4 : List MappedRow := [⟨[], [], some 2, some 5⟩]

/-- Accounts table with the single email `a@x.com` (id 1). -/
def exAccountsC5 : List AccountRec := [⟨some 1, some [97, 64, 120, 46, 99, 111, 109]⟩]

/-- Tags table with the single tag `VIP` (id 9). -/
def exTagsC5 : List TagRec := [⟨some 9, some [86, 73, 80]⟩]

/-- One input row `(b@x.com, vip)`: its email is absent from the accounts. -/
def exInputC5 : List InputRow := [⟨[98, 64, 120, 46, 99, 111, 109], [118, 105, 112]⟩]

/-- A row with `n/a` account id under tag 6. -/
def exRowC5w : MappedRow := ⟨[], [], none, some 6⟩

/-- Thirty resolved rows sharing tag 9. -/
def exRowsC6 : List MappedRow :=
  (List.range 30).map fun i => ⟨[], [], some (Int.ofNat i), some 9⟩

/-- Account record `a@x.com` with id 1. -/
def exAcc1 : AccountRec := ⟨some 1, some [97, 64, 120, 46, 99, 111, 109]⟩

/-- Account record ` A@X.com` with id 2; same normalized email as `exAcc1`. -/
def exAcc2 : AccountRec := ⟨some 2, some [32, 65, 64, 88, 46, 99, 111, 109]⟩

/-- Account record with a null id, discarded by the lookup builder. -/
def exAccNull : AccountRec := ⟨none, some [97, 64, 120, 46, 99, 111, 109]⟩

/-- Tag record whose name is a single space (id 9). -/
def exTagWs1 : TagRec := ⟨some 9, some [32]⟩

/-- Tag record whose name is a single space (id 10). -/
def exTagWs2 : TagRec := ⟨some 10, some [32]⟩

/-- A single tag `vip` with id 3. -/
def exTagsC10 : List TagRec := [⟨some 3, some [118, 105, 112]⟩]

/-! ### Claims -/

/-- C1 counterexample: in a dry run with one resolved row, the rows counted
applied plus failed plus skipped-for-missing-id sum to 0, not to the one input
row — the dry-run-skipped row is in none of the claimed buckets. -/
theorem claim_C1_counterexample :
    (runApply true oracleOk exRowsC1).totalOk +
        (runApply true oracleOk exRowsC1).totalFail +
        (invalidRows exRowsC1).length = 0 ∧
      exRowsC1.length = 1 := by
  decide

/-- C1 (amended): each input row of the mapped table is counted in exactly one
of FOUR buckets — applied, failed, skipped for a missing account id or tag id,
or skipped by dry run — and the four bucket totals sum to the number of input
rows; in live mode the dry-run bucket is empty, so the three buckets of the
original claim do sum to the total. -/
theorem claim_C1 (dry : Bool) (oracle : Nat → Bool × String) (rows : List MappedRow) :
    ((runApply dry oracle rows).totalOk + (runApply dry oracle rows).totalFail +
        dryCount (runApply dry oracle rows).logs + (invalidRows rows).length =
      rows.length) ∧
    (dry = false →
      (runApply dry oracle rows).totalOk + (runApply dry oracle rows).totalFail +
          (invalidRows rows).length = rows.length) := by
  have hm := runApply_measure dry oracle rows
  unfold okFailDry at hm
  have hs := valid_invalid_split rows
  constructor
  · omega
  · intro h
    subst h
    have h0 := runApply_live_dryCount oracle rows
    omega

/-- C1 witness: the amended claim applied to a live run over a concrete mapped
table of two rows. -/
theorem claim_C1_witness :
    (runApply false oracleOk exRowsC1w).totalOk +
        (runApply false oracleOk exRowsC1w).totalFail +
        (invalidRows exRowsC1w).length = exRowsC1w.length :=
  (claim_C1 false oracleOk exRowsC1w).2 rfl

/-- C2: for a group of N ≥ 1 account ids under one tag, the batching loop
produces exactly ceil(N/25) chunks (Nat division: (N + 25 - 1) / 25), every
chunk has between 1 and `EMAIL_BATCH_LIMIT` = 25 elements, and concatenating
the chunks in order gives back exactly the original ids, so each resolved row
lands in exactly one chunk. -/
theorem claim_C2 (ids : List Int) (_h : 1 ≤ ids.length) :
    ((chunkList EMAIL_BATCH_LIMIT ids).length =
        (ids.length + EMAIL_BATCH_LIMIT - 1) / EMAIL_BATCH_LIMIT) ∧
      (∀ c ∈ chunkList EMAIL_BATCH_LIMIT ids,
        1 ≤ c.length ∧ c.length ≤ EMAIL_BATCH_LIMIT) ∧
      (chunkList EMAIL_BATCH_LIMIT ids).flatten = ids :=
  ⟨chunkList_length_eq emailBatchLimit_pos ids,
    chunkList_sizes emailBatchLimit_pos ids,
    chunkList_flatten emailBatchLimit_pos ids⟩

/-- C2 witness: thirty ids form ceil(30/25) = 2 chunks. -/
theorem claim_C2_witness :
    1 ≤ exIdsC2.length ∧
      (chunkList EMAIL_BATCH_LIMIT exIdsC2).length =
        (exIdsC2.length + EMAIL_BATCH_LIMIT - 1) / EMAIL_BATCH_LIMIT :=
  ⟨by decide, (claim_C2 exIdsC2 (by decide)).1⟩

/-- C3: with the dry-run flag enabled, no call to the tag-mapping endpoint is
ever made (the call counter stays 0), every chunk is recorded in the action
log (one entry per chunk) with the dry-run skipped status, and the Failed
total is zero. -/
theorem claim_C3 (oracle : Nat → Bool × String) (rows : List MappedRow) :
    (runApply true oracle rows).calls = 0 ∧
      (runApply true oracle rows).logs.length = numChunks rows ∧
      (∀ e ∈ (runApply true oracle rows).logs, e.status = Status.skippedDryRun) ∧
      (runApply true oracle rows).totalFail = 0 :=
  ⟨runApply_dry_calls oracle rows, runApply_logs_length true oracle rows,
    runApply_dry_statuses oracle rows, runApply_dry_totalFail oracle rows⟩

/-- C3 witness: a concrete dry run over one resolved row makes no call and its
single log entry carries the dry-run status. -/
theorem claim_C3_witness :
    (⟨9, 1, Status.skippedDryRun⟩ : LogEntry) ∈ (runApply true oracleOk exRowsC3).logs ∧
      (⟨9, 1, Status.skippedDryRun⟩ : LogEntry).status = Status.skippedDryRun ∧
      (runApply true oracleOk exRowsC3).calls = 0 :=
  ⟨by decide,
    (claim_C3 oracleOk exRowsC3).2.2.1 ⟨9, 1, Status.skippedDryRun⟩ (by decide),
    (claim_C3 oracleOk exRowsC3).1⟩

/-- C4 counterexample: a dry run over one resolved row reports an applied
total of 0, not the number of resolved rows (1) — the dry-run branch
`continue`s before `total_ok` is incremented. -/
theorem claim_C4_counterexample :
    (validRows exRowsC4).length = 1 ∧ (runApply true oracleOk exRowsC4).totalOk = 0 := by
  decide

/-- C4 (amended): when dry run is enabled, chunk member rows are NOT counted
as applied: the reported applied and failed totals are both 0, and all
resolved rows are accounted for only in the dry-run-skipped log entries. -/
theorem claim_C4 (oracle : Nat → Bool × String) (rows : List MappedRow) :
    (runApply true oracle rows).totalOk = 0 ∧
      (runApply true oracle rows).totalFail = 0 ∧
      dryCount (runApply true oracle rows).logs = (validRows rows).length := by
  refine ⟨runApply_dry_totalOk oracle rows, runApply_dry_totalFail oracle rows, ?_⟩
  have hm := runApply_measure true oracle rows
  unfold okFailDry at hm
  rw [runApply_dry_totalOk oracle rows, runApply_dry_totalFail oracle rows] at hm
  simpa using hm

/-- C5 counterexample: for the input row `(b@x.com, vip)` whose email is
absent from the account map while its tag resolves to id 9, the code gives the
row `n/a` (`none`) for the account id and excludes it from every batch: the
action log of the whole run is empty, so the row never receives any status —
in particular not `SKIPPED_NO_ACCOUNT`, which appears nowhere in the code. -/
theorem claim_C5_counterexample :
    mapFrame (buildEmailToId exAccountsC5) ((buildTagToId exTagsC5).1) exInputC5 =
        [⟨[98, 64, 120, 46, 99, 111, 109], [118, 105, 112], none, some 9⟩] ∧
      (runApply false oracleOk
          (mapFrame (buildEmailToId exAccountsC5) ((buildTagToId exTagsC5).1)
            exInputC5)).logs = [] := by
  decide

/-- C5 (amended): the code has no per-row status column.  Statuses exist only
per batch and are drawn from APPLIED | FAILED-with-error | SKIPPED-dry-run;
a row with a missing account id or tag id is marked by the `n/a` (`none`)
value, belongs to `invalid_rows`, is excluded from the `valid` sub-frame, and
is therefore dispatched in no batch and receives no status. -/
theorem claim_C5 (dry : Bool) (oracle : Nat → Bool × String) (rows : List MappedRow) :
    (∀ e ∈ (runApply dry oracle rows).logs,
        e.status = Status.applied ∨ (∃ s, e.status = Status.failedWith s) ∨
          e.status = Status.skippedDryRun) ∧
      (∀ r ∈ rows, (r.email_account_id = none ∨ r.tag_id = none) →
        (r ∈ invalidRows rows ∧ r ∉ validRows rows)) := by
  constructor
  · intro e _
    cases hst : e.status with
    | applied => exact Or.inl rfl
    | failedWith s => exact Or.inr (Or.inl ⟨s, rfl⟩)
    | skippedDryRun => exact Or.inr (Or.inr rfl)
  · intro r hr hmiss
    constructor
    · unfold invalidRows
      rw [List.mem_filter]
      refine ⟨hr, ?_⟩
      rcases hmiss with h | h <;> simp [h]
    · unfold validRows
      rw [List.mem_filter]
      rintro ⟨_, hb⟩
      rcases hmiss with h | h <;> rw [h] at hb <;> simp at hb

/-- C5 witness: the amended claim applied to a concrete row with a missing
account id. -/
theorem claim_C5_witness :
    exRowC5w ∈ invalidRows [exRowC5w] ∧ exRowC5w ∉ validRows [exRowC5w] :=
  ⟨((claim_C5 false oracleOk [exRowC5w]).2 exRowC5w (by decide) (Or.inl rfl)).1,
    ((claim_C5 false oracleOk [exRowC5w]).2 exRowC5w (by decide) (Or.inl rfl)).2⟩

/-- C6: in live mode the number of calls made to the tag-mapping endpoint
always equals the total number of chunks, whatever the per-call outcomes —
a failing chunk never stops later chunks; concretely, 30 resolved rows under
tag 9 with a first call that fails with `boom` give exactly the log
[FAILED chunk of 25, APPLIED chunk of 5], 25 failed rows, 5 applied rows and
2 calls. -/
theorem claim_C6 :
    (∀ (oracle : Nat → Bool × String) (rows : List MappedRow),
        (runApply false oracle rows).calls = numChunks rows) ∧
      runApply false oracleFailFirst exRowsC6 =
        ⟨[⟨9, 25, Status.failedWith "boom"⟩, ⟨9, 5, Status.applied⟩], 5, 25, 2⟩ :=
  ⟨fun oracle rows => runApply_live_calls oracle rows, by decide⟩

/-- C7: the `email_to_id` dict equals, at every key, the id of the LAST
account record whose nonempty normalized email is that key (and whose id is
non-null): duplicates silently overwrite, and appending a valid record always
makes its id the stored one for its key. -/
theorem claim_C7 :
    (∀ (accounts : List AccountRec) (k : PyStr),
        buildEmailToId accounts k =
          (lastMatch (accMatches k) accounts).bind AccountRec.id) ∧
      (∀ (l : List AccountRec) (a : AccountRec), validAcc a = true →
        buildEmailToId (l ++ [a]) (normalize_email a.from_email) = a.id) :=
  ⟨buildEmailToId_lastMatch, buildEmailToId_append_valid⟩

/-- C7 witness: `a@x.com` (id 1) followed by ` A@X.com` (id 2) — the same
normalized key — resolves to id 2, the last record. -/
theorem claim_C7_witness :
    validAcc exAcc2 = true ∧
      buildEmailToId [exAcc1, exAcc2] (normalize_email exAcc2.from_email) = some 2 :=
  ⟨by decide, claim_C7.2 [exAcc1] exAcc2 (by decide)⟩

/-- C8: lookup records with an empty-normalizing (null/empty/whitespace) email
or tag name, or a null id, contribute nothing to the lookup maps: removing
such a record anywhere in the list leaves `email_to_id` (and `tag_to_id`
together with its collision list) unchanged; by contrast a valid record does
contribute its entry, and the mapping stage itself drops no input row (the
mapped frame has one row per input row). -/
theorem claim_C8 :
    (∀ (l1 l2 : List AccountRec) (a : AccountRec), validAcc a = false →
        ∀ k, buildEmailToId (l1 ++ a :: l2) k = buildEmailToId (l1 ++ l2) k) ∧
      (∀ (l1 l2 : List TagRec) (t : TagRec), validTag t = false →
        buildTagToId (l1 ++ t :: l2) = buildTagToId (l1 ++ l2)) ∧
      (∀ (l : List TagRec) (t : TagRec), validTag t = true →
        (buildTagToId (l ++ [t])).1 (normalize_tag t.name) = t.id) ∧
      (∀ (e2i t2i : PyStr → Option Int) (rows : List InputRow),
        (mapFrame e2i t2i rows).length = rows.length) :=
  ⟨fun l1 l2 a h k => by rw [buildEmailToId_skip l1 l2 a h],
    buildTagToId_skip, buildTagToId_append_valid,
    fun e2i t2i rows => by
      unfold mapFrame buildFrame
      rw [List.length_map, List.length_map]⟩

/-- C8 witness: a record with a null id contributes no entry for its email. -/
theorem claim_C8_witness :
    validAcc exAccNull = false ∧
      buildEmailToId [exAccNull] [97, 64, 120, 46, 99, 111, 109] =
        buildEmailToId [] [97, 64, 120, 46, 99, 111, 109] :=
  ⟨by decide, claim_C8.1 [] [] exAccNull (by decide) _⟩

/-- C9: `normalize_email` and `normalize_tag` are idempotent on every string,
and the normalized key is exactly the trimmed (stripped) then lowercased form
of the input. -/
theorem claim_C9 :
    (∀ s : PyStr,
        normalize_email (some (normalize_email (some s))) = normalize_email (some s)) ∧
      (∀ s : PyStr,
        normalize_tag (some (normalize_tag (some s))) = normalize_tag (some s)) ∧
      (∀ s : PyStr,
        normalize_email (some s) = pyLower (pyStrip s) ∧
          normalize_tag (some s) = pyLower (pyStrip s)) := by
  have key : ∀ s : PyStr, pyLower (pyStrip (pyLower (pyStrip s))) = pyLower (pyStrip s) :=
    fun s => by rw [pyStrip_pyLower, pyStrip_pyStrip, pyLower_idem]
  exact ⟨fun s => key s, fun s => key s, fun s => ⟨rfl, rfl⟩⟩

/-- C10 counterexample: two tag records whose names normalize to the empty
string carry different ids (9 and 10) yet raise no duplicate-name warning —
the collision list stays empty because empty-name records are discarded. -/
theorem claim_C10_counterexample :
    normalize_tag exTagWs1.name = normalize_tag exTagWs2.name ∧
      exTagWs1.id ≠ exTagWs2.id ∧
      (buildTagToId [exTagWs1, exTagWs2]).2 = [] := by
  decide

/-- C10 (amended): the duplicate-name warning fires iff two tag records that
each enter the map (nonempty normalized name, non-null id) share a normalized
name with different ids; records agreeing in name and id are never reported;
and — collision or not — the map resolves every key to the id of the last
entering record with that name. -/
theorem claim_C10 (tags : List TagRec) :
    ((buildTagToId tags).2 = [] ↔ List.Pairwise tagRel tags) ∧
      (∀ k, (buildTagToId tags).1 k = (lastMatch (tagMatches k) tags).bind TagRec.id) :=
  ⟨buildTagToId_cols_iff tags, buildTagToId_lastMatch tags⟩

/-- C10 witness: a single-tag table raises no warning and resolves its name. -/
theorem claim_C10_witness :
    (buildTagToId exTagsC10).2 = [] ∧
      (buildTagToId exTagsC10).1 [118, 105, 112] = some 3 := by
  refine ⟨(claim_C10 exTagsC10).1.mpr ?_, ?_⟩
  · simp [exTagsC10, List.pairwise_cons]
  · rw [(claim_C10 exTagsC10).2 [118, 105, 112]]
    decide
